import Mathlib

/-!
Shallow embedding of the simulated-annealing hash-tuning program
(`src/goodness/goodness.cpp`) together with proofs of the specification
claims about it.

Conventions of the embedding:
* C++ `int` fields of `State` become `ℤ`.
* `unsigned int` / `unsigned long` values become `ℕ`; where 32-bit
  wraparound matters (`hashCode`) the reduction `% 2^32` is explicit.
* The source's `map<unsigned long,int>` is an association list whose keys
  are unique by construction, exactly as `std::map` keys are.
* `rand()` draws are explicit parameters (`ℕ` inputs reduced with the same
  `%` expressions the source applies); the uniform `[0,1]` sample of the
  accept test is an explicit `ℝ` stream.
* The data file `"hashed"` read by `calcEnergy` is an `Option (List ℕ)`:
  `none` models an unreadable file (the `fin.fail()` branch), `some codes`
  the sequence of integers the stream extraction yields.
* `float`/`double` arithmetic of the schedule and acceptance test is
  modelled over `ℝ`.
-/

/-- `struct State`: the four shift amounts `a b c d` (C++ `int`). -/
@[ext]
structure State where
  a : ℤ
  b : ℤ
  c : ℤ
  d : ℤ
  deriving Repr, DecidableEq

/-- `indexFor(long h, int length) { return h & (length-1); }` -/
def indexFor (h length : ℕ) : ℕ :=
  h &&& (length - 1)

/-- `safteyHash(unsigned long h, int a, int b, int c, int d)`:
`h = h ^ (h >> a) ^ (h >> b); return h ^ (h >> c) ^ (h >> d);`
with the shift-in-zero reading of out-of-range shifts (on `ℕ`,
`h >>> n = 0` for every `n` once `2^n` exceeds `h`). -/
def safteyHash (h a b c d : ℕ) : ℕ :=
  let h2 := h ^^^ (h >>> a) ^^^ (h >>> b)
  h2 ^^^ (h2 >>> c) ^^^ (h2 >>> d)

/-- The same source text as `safteyHash`, but parameterised over the
platform's right-shift semantics `shr`, because C++ leaves `h >> a`
undefined when `a` is at least the bit width of `h`: the source contains
no guard, so its meaning at such shift amounts is whatever the platform
does. -/
def safteyHashPlat (shr : ℕ → ℕ → ℕ) (h a b c d : ℕ) : ℕ :=
  let h2 := h ^^^ (shr h a) ^^^ (shr h b)
  h2 ^^^ (shr h2 c) ^^^ (shr h2 d)

/-- One concrete platform shift semantics: x86-style masking of the shift
count modulo the 64-bit word width.  It agrees with shift-in-zero on all
in-range shift amounts. -/
def maskShr (h n : ℕ) : ℕ :=
  h >>> (n % 64)

/-- `verifyState(State state, int min, int max)`: clamp each of the four
fields into `[min, max]`, one `if/else if` chain per field, in order. -/
def verifyState (state : State) (min max : ℤ) : State :=
  let s1 := if state.a > max then { state with a := max }
            else if state.a < min then { state with a := min } else state
  let s2 := if s1.b > max then { s1 with b := max }
            else if s1.b < min then { s1 with b := min } else s1
  let s3 := if s2.c > max then { s2 with c := max }
            else if s2.c < min then { s2 with c := min } else s2
  if s3.d > max then { s3 with d := max }
  else if s3.d < min then { s3 with d := min } else s3

/-- `getNeightbor(State state)`: the three `rand()` draws are explicit
inputs `r1 r2 r3`, reduced exactly as the source reduces them
(`rand() % 4`, `rand() % 2`, `rand() % 6 + 1`). -/
def getNeightbor (state : State) (r1 r2 r3 : ℕ) : State :=
  let varToChange := r1 % 4
  let increment : Bool := r2 % 2 != 0
  let toAdd : ℤ := (r3 % 6 : ℕ) + 1
  let changed :=
    if varToChange = 0 then
      { state with a := if increment then state.a + toAdd else state.a - toAdd }
    else if varToChange = 1 then
      { state with b := if increment then state.b + toAdd else state.b - toAdd }
    else if varToChange = 2 then
      { state with c := if increment then state.c + toAdd else state.c - toAdd }
    else
      { state with d := if increment then state.d + toAdd else state.d - toAdd }
  verifyState changed 0 31

/-- `getTemp(float k, float kmax) { return 100.0 / (k / kmax); }` -/
noncomputable def getTemp (k kmax : ℝ) : ℝ :=
  100 / (k / kmax)

/-- `pOfAccept(float currentEnergy, float newEnergy, float temp)`:
`1` when the new energy is strictly better, otherwise
`exp((newEnergy - currentEnergy) * -1.0 / temp)`. -/
noncomputable def pOfAccept (currentEnergy newEnergy temp : ℝ) : ℝ :=
  if newEnergy < currentEnergy then 1
  else Real.exp ((newEnergy - currentEnergy) * (-1) / temp)

/-- `hashCode(string &word)`: `h = 31 * h + word[i]` over the character
codes in order, in `unsigned int` (i.e. modulo `2^32`) arithmetic. -/
def hashCode (word : List ℕ) : ℕ :=
  word.foldl (fun h ch => (31 * h + ch) % 4294967296) 0

/-- The closed form the source documents for `hashCode`:
`s[0]*31^(n-1) + s[1]*31^(n-2) + ... + s[n-1]` (before 32-bit reduction). -/
def javaPolyHash (word : List ℕ) : ℕ :=
  ∑ i ∈ Finset.range word.length, word.getD i 0 * 31 ^ (word.length - 1 - i)

/-- The bucket a code lands in inside `calcEnergy`:
`temp = safteyHash(temp, state.a, state.b, state.c, state.d);
 temp = indexFor(temp, size);`.
Shift amounts are `int`s in the source; every state the program ever
hashes with has them in `[0,31]`, so the `ℤ → ℕ` view via `toNat` is
value-preserving there (negative shift amounts are undefined in C++). -/
def bucketOf (state : State) (size : ℕ) (code : ℕ) : ℕ :=
  indexFor (safteyHash code state.a.toNat state.b.toNat state.c.toNat state.d.toNat) size

/-- One loop body step on the `collisionRecord` map: if the key is absent
store `0`, otherwise increment the stored count. -/
def recordCollision (m : List (ℕ × ℕ)) (key : ℕ) : List (ℕ × ℕ) :=
  if (m.lookup key).isSome then
    m.map fun p => if p.1 = key then (p.1, p.2 + 1) else p
  else
    m ++ [(key, 0)]

/-- The `collisionRecord` map after consuming the whole code sequence. -/
def collisionRecord (state : State) (size : ℕ) (codes : List ℕ) : List (ℕ × ℕ) :=
  codes.foldl (fun m code => recordCollision m (bucketOf state size code)) []

/-- `calcEnergy(string filename, State state, int size)`: `-1` when the
file cannot be opened, otherwise the sum of the stored per-bucket counts
(the commented-out division by the bucket count is not performed). -/
def calcEnergy (data : Option (List ℕ)) (state : State) (size : ℕ) : ℤ :=
  match data with
  | none => -1
  | some codes => (((collisionRecord state size codes).map Prod.snd).sum : ℕ)

/-- The `if (temp >= size) cout << "Error"` check inside `calcEnergy`:
`true` iff some code's reduced bucket index escapes the table. -/
def calcEnergyError (state : State) (size : ℕ) (codes : List ℕ) : Bool :=
  codes.any fun code => decide (size ≤ bucketOf state size code)

/-- The energy the engine reads for a state: `calcEnergy("hashed", s, size)`
stored into a floating-point variable, modelled over `ℝ`. -/
noncomputable def energyOf (data : Option (List ℕ)) (size : ℕ) (s : State) : ℝ :=
  (calcEnergy data s size : ℝ)

/-- The local variables of `anneal`'s loop: current state `s` and energy
`e`, best state `sbest` and energy `ebest`, and the counter `k`. -/
structure SAState where
  s : State
  e : ℝ
  sbest : State
  ebest : ℝ
  k : ℕ

section Anneal

variable (data : Option (List ℕ)) (size kmax : ℕ) (emax : ℝ)
variable (u : ℕ → ℝ) (r1 r2 r3 : ℕ → ℕ)

/-- One body of `anneal`'s `while` loop.  The three `rand()` draws of
`getNeightbor` at iteration `k` are `r1 k`, `r2 k`, `r3 k`, and the
uniform sample `rand()/RAND_MAX` is `u k`. -/
noncomputable def annealStep (c : SAState) : SAState :=
  let T := getTemp (c.k : ℝ) (kmax : ℝ)
  let snew := getNeightbor c.s (r1 c.k) (r2 c.k) (r3 c.k)
  let enew := energyOf data size snew
  { s := if pOfAccept c.e enew T > u c.k then snew else c.s
    e := if pOfAccept c.e enew T > u c.k then enew else c.e
    sbest := if enew < c.ebest then snew else c.sbest
    ebest := if enew < c.ebest then enew else c.ebest
    k := c.k + 1 }

/-- The guarded loop body: run one iteration while
`k < kmax && e > emax` holds, otherwise leave the loop state unchanged. -/
noncomputable def annealG (c : SAState) : SAState :=
  if c.k < kmax ∧ emax < c.e then annealStep data size kmax u r1 r2 r3 c else c

/-- The loop state just before the loop starts:
`e = ebest = calcEnergy("hashed", s, size)`, `sbest = s`, `k = 0`. -/
noncomputable def annealInit (s : State) : SAState :=
  ⟨s, energyOf data size s, s, energyOf data size s, 0⟩

/-- The loop state after `n` guarded iterations of `anneal`'s loop. -/
noncomputable def annealTrace (s : State) (n : ℕ) : SAState :=
  (annealG data size kmax emax u r1 r2 r3)^[n] (annealInit data size s)

/-- `anneal(State s, int kmax, float emax, int size)`: run the loop and
return `sbest`.  The loop increments `k` every iteration and requires
`k < kmax`, so `kmax` guarded steps always reach the exit. -/
noncomputable def anneal (s : State) : State :=
  (annealTrace data size kmax emax u r1 r2 r3 s kmax).sbest

end Anneal

/-! ### Basic lemmas about the hash primitives -/

lemma indexFor_two_pow_lt (h m : ℕ) : indexFor h (2 ^ m) < 2 ^ m := by
  rw [indexFor, Nat.and_pow_two_sub_one_eq_mod]
  exact Nat.mod_lt _ (pow_pos (by norm_num) m)

lemma javaPolyHash_nil : javaPolyHash [] = 0 := by
  simp [javaPolyHash]

lemma javaPolyHash_cons (ch : ℕ) (w : List ℕ) :
    javaPolyHash (ch :: w) = ch * 31 ^ w.length + javaPolyHash w := by
  rw [javaPolyHash, javaPolyHash, List.length_cons, Finset.sum_range_succ']
  have hsum : ∀ i ∈ Finset.range w.length,
      (ch :: w).getD (i + 1) 0 * 31 ^ (w.length + 1 - 1 - (i + 1))
        = w.getD i 0 * 31 ^ (w.length - 1 - i) := by
    intro i _
    have he : w.length + 1 - 1 - (i + 1) = w.length - 1 - i := by omega
    rw [List.getD_cons_succ, he]
  rw [Finset.sum_congr rfl hsum, List.getD_cons_zero]
  have : w.length + 1 - 1 - 0 = w.length := by omega
  rw [this, Nat.add_comm]

lemma foldl_hash_poly (word : List ℕ) : ∀ h0 : ℕ,
    word.foldl (fun h ch => 31 * h + ch) h0
      = h0 * 31 ^ word.length + javaPolyHash word := by
  induction word with
  | nil => intro h0; simp [javaPolyHash]
  | cons ch w ih =>
      intro h0
      rw [List.foldl_cons, ih, javaPolyHash_cons, List.length_cons]
      ring

lemma foldl_hash_mod (word : List ℕ) : ∀ h0 : ℕ,
    word.foldl (fun h ch => (31 * h + ch) % 4294967296) (h0 % 4294967296)
      = (word.foldl (fun h ch => 31 * h + ch) h0) % 4294967296 := by
  induction word with
  | nil => intro h0; rfl
  | cons ch w ih =>
      intro h0
      rw [List.foldl_cons, List.foldl_cons]
      have hacc : (31 * (h0 % 4294967296) + ch) % 4294967296
          = (31 * h0 + ch) % 4294967296 := by omega
      rw [hacc, ih (31 * h0 + ch)]

lemma hashCode_eq_poly_mod (word : List ℕ) :
    hashCode word = javaPolyHash word % 4294967296 := by
  have h0 : (0 : ℕ) = 0 % 4294967296 := rfl
  rw [hashCode, h0, foldl_hash_mod, foldl_hash_poly]
  simp

/-! ### Clamping lemma for `verifyState` -/

lemma verifyState_a (t : State) (lo hi : ℤ) :
    (verifyState t lo hi).a = if t.a > hi then hi else if t.a < lo then lo else t.a := by
  simp only [verifyState, apply_ite State.a, ite_self]

lemma verifyState_b (t : State) (lo hi : ℤ) :
    (verifyState t lo hi).b = if t.b > hi then hi else if t.b < lo then lo else t.b := by
  simp only [verifyState, apply_ite State.b, ite_self]

lemma verifyState_c (t : State) (lo hi : ℤ) :
    (verifyState t lo hi).c = if t.c > hi then hi else if t.c < lo then lo else t.c := by
  simp only [verifyState, apply_ite State.c, ite_self]

lemma verifyState_d (t : State) (lo hi : ℤ) :
    (verifyState t lo hi).d = if t.d > hi then hi else if t.d < lo then lo else t.d := by
  simp only [verifyState, apply_ite State.d, ite_self]

lemma clamp_eq_max_min (x : ℤ) :
    (if x > 31 then (31 : ℤ) else if x < 0 then 0 else x) = max 0 (min 31 x) := by
  rw [max_def, min_def]
  split_ifs <;> omega

lemma verifyState_eq_clamp (t : State) :
    verifyState t 0 31 =
      { a := max 0 (min 31 t.a), b := max 0 (min 31 t.b),
        c := max 0 (min 31 t.c), d := max 0 (min 31 t.d) } := by
  ext
  · rw [verifyState_a, clamp_eq_max_min]
  · rw [verifyState_b, clamp_eq_max_min]
  · rw [verifyState_c, clamp_eq_max_min]
  · rw [verifyState_d, clamp_eq_max_min]

/-! ### Claims about the acceptance probability -/

/-- Claim C2: for every pair of energies and every positive temperature,
`pOfAccept` returns exactly 1 whenever the new energy is strictly less
than the current energy. -/
theorem pOfAccept_improving (currentEnergy newEnergy temp : ℝ)
    (_htemp : 0 < temp) (himp : newEnergy < currentEnergy) :
    pOfAccept currentEnergy newEnergy temp = 1 := by
  rw [pOfAccept, if_pos himp]

theorem pOfAccept_improving_witness : pOfAccept 2 1 1 = 1 :=
  pOfAccept_improving 2 1 1 (by norm_num) (by norm_num)

/-- Counterexample to claim C3 as stated: with the energies fixed at
`e = 0 < 1 = enew`, raising the temperature from 1 to 2 strictly raises
the acceptance probability, so `pOfAccept` is strictly increasing in the
temperature, not strictly decreasing as the claim says. -/
theorem pOfAccept_increasing_in_temp_cex :
    pOfAccept 0 1 1 < pOfAccept 0 1 2 := by
  have h1 : ¬ ((1 : ℝ) < 0) := by norm_num
  rw [pOfAccept, if_neg h1, pOfAccept, if_neg h1]
  apply Real.exp_lt_exp.mpr
  norm_num

/-- Claim C3 (amended): for fixed energies `e < enew`, `pOfAccept` is
strictly increasing in the temperature over `0 < T1 < T2` (colder means
less tolerant of worse moves); for a fixed positive temperature it is
strictly decreasing in the energy gap, here stated as antitone in the new
energy over `e < enew1 < enew2`. -/
theorem pOfAccept_monotonicity (e enew enew1 enew2 T T1 T2 : ℝ)
    (he : e < enew) (hT1 : 0 < T1) (hT12 : T1 < T2)
    (he1 : e < enew1) (he12 : enew1 < enew2) (hT : 0 < T) :
    pOfAccept e enew T1 < pOfAccept e enew T2 ∧
    pOfAccept e enew2 T < pOfAccept e enew1 T := by
  constructor
  · rw [pOfAccept, if_neg (not_lt.mpr he.le), pOfAccept, if_neg (not_lt.mpr he.le)]
    apply Real.exp_lt_exp.mpr
    have hg : 0 < enew - e := by linarith
    have key : (enew - e) / T2 < (enew - e) / T1 :=
      div_lt_div_of_pos_left hg hT1 hT12
    have := neg_lt_neg key
    rw [mul_neg_one, neg_div, neg_div]
    exact this
  · have h2 : ¬ (enew2 < e) := not_lt.mpr (by linarith)
    have h1 : ¬ (enew1 < e) := not_lt.mpr he1.le
    rw [pOfAccept, if_neg h2, pOfAccept, if_neg h1]
    apply Real.exp_lt_exp.mpr
    have key : (enew1 - e) / T < (enew2 - e) / T := by
      gcongr
    have := neg_lt_neg key
    rw [mul_neg_one, mul_neg_one, neg_div, neg_div]
    exact this

theorem pOfAccept_monotonicity_witness :
    pOfAccept 0 1 1 < pOfAccept 0 1 2 ∧ pOfAccept 0 2 1 < pOfAccept 0 1 1 :=
  pOfAccept_monotonicity 0 1 1 2 1 1 2 (by norm_num) (by norm_num) (by norm_num)
    (by norm_num) (by norm_num) (by norm_num)

/-! ### Claims about the hash primitives -/

/-- Counterexample to claim C7 as stated: `safteyHash` contains no explicit
guard for shift amounts at or above the word's bit width, so at such
amounts its value depends on the platform's shift semantics.  Under the
x86-style count-masking semantics `maskShr` (which agrees with
shift-in-zero on every in-range amount) the result at shift amounts
64..67 differs from the shift-in-zero result the claim asserts. -/
theorem safteyHash_unguarded_cex :
    safteyHashPlat maskShr 2 64 65 66 67 ≠ safteyHash 2 64 65 66 67 := by
  decide

/-- Claim C7 (amended): the source applies no explicit out-of-range-shift
guard, so its value at amounts at or above the bit width is platform
dependent; but for all shift amounts below the 64-bit width of the hashed
word — in particular the clamped `[0,31]` amounts the program ever uses —
every platform shift semantics that agrees with shift-in-zero on in-range
amounts makes `safteyHash` compute
`h = code ^ (code>>a) ^ (code>>b); h ^ (h>>c) ^ (h>>d)`. -/
theorem safteyHash_formula_in_range (shr : ℕ → ℕ → ℕ)
    (hshr : ∀ x n, n < 64 → shr x n = x >>> n)
    (h a b c d : ℕ) (ha : a < 64) (hb : b < 64) (hc : c < 64) (hd : d < 64) :
    safteyHashPlat shr h a b c d = safteyHash h a b c d := by
  simp only [safteyHashPlat, safteyHash, hshr _ _ ha, hshr _ _ hb,
    hshr _ _ hc, hshr _ _ hd]

theorem safteyHash_formula_in_range_witness :
    safteyHashPlat maskShr 7 20 12 7 4 = safteyHash 7 20 12 7 4 :=
  safteyHash_formula_in_range maskShr
    (fun x n hn => by rw [maskShr, Nat.mod_eq_of_lt hn])
    7 20 12 7 4 (by decide) (by decide) (by decide) (by decide)

/-- Claim C9: `hashCode` computes the 31-ary polynomial rolling hash of
the character codes, reduced modulo `2^32`; the empty string hashes to 0;
and the hash is deterministic (it is a pure function of the character
list, so repeated calls agree definitionally). -/
theorem hashCode_spec :
    hashCode [] = 0 ∧
    (∀ word : List ℕ, hashCode word = javaPolyHash word % 2 ^ 32) ∧
    (∀ word : List ℕ, hashCode word = hashCode word) := by
  refine ⟨rfl, ?_, fun _ => rfl⟩
  intro word
  have h32 : (4294967296 : ℕ) = 2 ^ 32 := by norm_num
  rw [hashCode_eq_poly_mod, h32]

/-- Claim C10: for a table size that is a power of two, `indexFor` always
lands in `[0, size - 1]`, hence the `temp >= size` error branch inside
`calcEnergy` can never fire for any state and any code sequence. -/
theorem indexFor_in_range (h m size : ℕ) (hsize : size = 2 ^ m) :
    indexFor h size < size ∧
    ∀ (state : State) (codes : List ℕ), calcEnergyError state size codes = false := by
  subst hsize
  refine ⟨indexFor_two_pow_lt h m, ?_⟩
  intro state codes
  rw [calcEnergyError, List.any_eq_false]
  intro code _
  simp only [decide_eq_true_eq, not_le]
  exact indexFor_two_pow_lt _ m

theorem indexFor_in_range_witness :
    indexFor 5 8 < 8 ∧
    ∀ (state : State) (codes : List ℕ), calcEnergyError state 8 codes = false :=
  indexFor_in_range 5 3 8 (by norm_num)

/-- Claim C8: `calcEnergy` returns the negative sentinel `-1` exactly when
the data source is unreadable; for every readable input the energy is a
sum of natural-number bucket counts and hence non-negative, and no other
input can produce a failure value. -/
theorem calcEnergy_sentinel (data : Option (List ℕ)) (state : State) (size : ℕ) :
    (calcEnergy data state size < 0 ↔ data = none) ∧
    calcEnergy none state size = -1 := by
  refine ⟨?_, rfl⟩
  cases data with
  | none => simp [calcEnergy]
  | some codes =>
      simp only [calcEnergy]
      constructor
      · intro hlt
        exact absurd hlt (not_lt.mpr (Int.natCast_nonneg _))
      · intro hc
        exact absurd hc (by simp)

/-! ### Claim about the neighbor generator -/

/-- Claim C4: for every input state (in bounds or not) and every triple of
random draws, all four fields of the generated neighbor lie in `[0, 31]`;
the bound is enforced by clamping to the interval endpoints (the final
`verifyState` call equals the `max 0 (min 31 _)` clamp on each field, not
a modular wraparound); and the input state is not mutated — the source
takes `State` by value and the embedding is a pure function, so the
argument is untouched by construction. -/
theorem getNeightbor_bounds (s : State) (r1 r2 r3 : ℕ) :
    (0 ≤ (getNeightbor s r1 r2 r3).a ∧ (getNeightbor s r1 r2 r3).a ≤ 31) ∧
    (0 ≤ (getNeightbor s r1 r2 r3).b ∧ (getNeightbor s r1 r2 r3).b ≤ 31) ∧
    (0 ≤ (getNeightbor s r1 r2 r3).c ∧ (getNeightbor s r1 r2 r3).c ≤ 31) ∧
    (0 ≤ (getNeightbor s r1 r2 r3).d ∧ (getNeightbor s r1 r2 r3).d ≤ 31) ∧
    (∀ t : State, verifyState t 0 31 =
      { a := max 0 (min 31 t.a), b := max 0 (min 31 t.b),
        c := max 0 (min 31 t.c), d := max 0 (min 31 t.d) }) := by
  have hclamp : ∀ x : ℤ, 0 ≤ max 0 (min 31 x) ∧ max 0 (min 31 x) ≤ 31 := by
    intro x
    exact ⟨le_max_left 0 _, max_le (by norm_num) (min_le_left 31 x)⟩
  have hmain : getNeightbor s r1 r2 r3 = verifyState
      (if r1 % 4 = 0 then
        { s with a := if (r2 % 2 != 0 : Bool) then s.a + ((r3 % 6 : ℕ) + 1 : ℤ)
                      else s.a - ((r3 % 6 : ℕ) + 1 : ℤ) }
      else if r1 % 4 = 1 then
        { s with b := if (r2 % 2 != 0 : Bool) then s.b + ((r3 % 6 : ℕ) + 1 : ℤ)
                      else s.b - ((r3 % 6 : ℕ) + 1 : ℤ) }
      else if r1 % 4 = 2 then
        { s with c := if (r2 % 2 != 0 : Bool) then s.c + ((r3 % 6 : ℕ) + 1 : ℤ)
                      else s.c - ((r3 % 6 : ℕ) + 1 : ℤ) }
      else
        { s with d := if (r2 % 2 != 0 : Bool) then s.d + ((r3 % 6 : ℕ) + 1 : ℤ)
                      else s.d - ((r3 % 6 : ℕ) + 1 : ℤ) }) 0 31 := rfl
  rw [hmain, verifyState_eq_clamp]
  exact ⟨hclamp _, hclamp _, hclamp _, hclamp _, fun t => verifyState_eq_clamp t⟩

/-! ### The collision-record invariants behind `calcEnergy` -/

lemma lookup_isSome_mem (m : List (ℕ × ℕ)) (key : ℕ) :
    (m.lookup key).isSome ↔ key ∈ m.map Prod.fst := by
  rw [List.lookup_isSome_iff]
  constructor
  · rintro ⟨p, hp, hbeq⟩
    exact List.mem_map.mpr ⟨p, hp, (beq_iff_eq.mp hbeq).symm⟩
  · intro hmem
    obtain ⟨p, hp, hfst⟩ := List.mem_map.mp hmem
    exact ⟨p, hp, beq_iff_eq.mpr hfst.symm⟩

lemma map_incr_fst (m : List (ℕ × ℕ)) (key : ℕ) :
    ((m.map fun p => if p.1 = key then (p.1, p.2 + 1) else p).map Prod.fst)
      = m.map Prod.fst := by
  rw [List.map_map]
  apply List.map_congr_left
  intro p _
  by_cases hp : p.1 = key <;> simp [hp]

lemma map_incr_sum (m : List (ℕ × ℕ)) (key : ℕ)
    (hnd : (m.map Prod.fst).Nodup) (hmem : key ∈ m.map Prod.fst) :
    ((m.map fun p => if p.1 = key then (p.1, p.2 + 1) else p).map Prod.snd).sum
      = (m.map Prod.snd).sum + 1 := by
  induction m with
  | nil => simp at hmem
  | cons p m ih =>
      obtain ⟨k, v⟩ := p
      rw [List.map_cons] at hnd
      rw [List.nodup_cons] at hnd
      by_cases hk : k = key
      · subst hk
        have hid : (m.map fun p => if p.1 = k then (p.1, p.2 + 1) else p) = m := by
          have : ∀ p ∈ m, (if p.1 = k then (p.1, p.2 + 1) else p) = p := by
            intro p hp
            have : p.1 ≠ k := by
              intro hpk
              exact hnd.1 (List.mem_map.mpr ⟨p, hp, hpk⟩)
            simp [this]
          calc (m.map fun p => if p.1 = k then (p.1, p.2 + 1) else p)
              = m.map id := List.map_congr_left (by simpa using this)
            _ = m := List.map_id m
        simp [hid]
        omega
      · have hkm : key ∈ m.map Prod.fst := by
          rw [List.map_cons] at hmem
          rcases List.mem_cons.mp hmem with h | h
          · exact absurd h.symm hk
          · exact h
        simp only [List.map_cons, List.sum_cons, if_neg hk]
        rw [ih hnd.2 hkm]
        omega

lemma recordAll_spec (ks : List ℕ) : ∀ m : List (ℕ × ℕ), (m.map Prod.fst).Nodup →
    ((ks.foldl recordCollision m).map Prod.fst).Nodup ∧
    ((ks.foldl recordCollision m).map Prod.fst).toFinset
      = (m.map Prod.fst).toFinset ∪ ks.toFinset ∧
    ((ks.foldl recordCollision m).map Prod.snd).sum + (ks.foldl recordCollision m).length
      = (m.map Prod.snd).sum + m.length + ks.length := by
  induction ks with
  | nil =>
      intro m hm
      simp [hm]
  | cons k ks ih =>
      intro m hm
      rw [List.foldl_cons]
      by_cases hmem : (m.lookup k).isSome
      · have hkm : k ∈ m.map Prod.fst := (lookup_isSome_mem m k).mp hmem
        have hfst : (recordCollision m k).map Prod.fst = m.map Prod.fst := by
          rw [recordCollision, if_pos hmem]
          exact map_incr_fst m k
        have hsum : ((recordCollision m k).map Prod.snd).sum
            = (m.map Prod.snd).sum + 1 := by
          rw [recordCollision, if_pos hmem]
          exact map_incr_sum m k hm hkm
        have hlen : (recordCollision m k).length = m.length := by
          rw [recordCollision, if_pos hmem, List.length_map]
        obtain ⟨h1, h2, h3⟩ := ih (recordCollision m k) (hfst ▸ hm)
        refine ⟨h1, ?_, ?_⟩
        · rw [h2, hfst, List.toFinset_cons]
          ext x
          simp only [Finset.mem_union, List.mem_toFinset, Finset.mem_insert]
          constructor
          · rintro (hx | hx)
            · exact Or.inl hx
            · exact Or.inr (Or.inr hx)
          · rintro (hx | rfl | hx)
            · exact Or.inl hx
            · exact Or.inl (List.mem_toFinset.mp (List.mem_toFinset.mpr hkm))
            · exact Or.inr hx
        · rw [h3, hsum, hlen, List.length_cons]
          omega
      · have hkm : k ∉ m.map Prod.fst := fun hmm => hmem ((lookup_isSome_mem m k).mpr hmm)
        have habs : recordCollision m k = m ++ [(k, 0)] := by
          rw [recordCollision, if_neg hmem]
        have hfst : (recordCollision m k).map Prod.fst = m.map Prod.fst ++ [k] := by
          rw [habs, List.map_append]
          rfl
        have hnd : ((recordCollision m k).map Prod.fst).Nodup := by
          rw [hfst]
          simp [List.nodup_append, hm, hkm]
        obtain ⟨h1, h2, h3⟩ := ih (recordCollision m k) hnd
        refine ⟨h1, ?_, ?_⟩
        · rw [h2, hfst, List.toFinset_append, List.toFinset_cons]
          ext x
          simp only [Finset.mem_union, List.mem_toFinset, List.toFinset_cons,
            List.toFinset_nil, insert_emptyc_eq, Finset.mem_insert, Finset.mem_singleton,
            Finset.mem_insert]
          tauto
        · have hsum : ((recordCollision m k).map Prod.snd).sum = (m.map Prod.snd).sum := by
            rw [habs, List.map_append]
            simp
          have hlen : (recordCollision m k).length = m.length + 1 := by
            rw [habs, List.length_append, List.length_cons, List.length_nil]
          rw [h3, hsum, hlen, List.length_cons]
          omega

/-- Claim C1: for every state and table size, `calcEnergy` on a readable
code sequence returns the number of codes hashed minus the number of
distinct occupied bucket indices — i.e. the sum over buckets of occupancy
beyond the first occupant (the map stores 0 on first insertion and
increments on every further hit); in particular the empty code sequence
yields energy 0 for every state and table size. -/
theorem calcEnergy_excess (state : State) (size : ℕ) (codes : List ℕ) :
    calcEnergy (some codes) state size
      = (codes.length : ℤ) - ((codes.map (bucketOf state size)).toFinset.card : ℤ) ∧
    calcEnergy (some []) state size = 0 := by
  constructor
  · have hfold : collisionRecord state size codes
        = (codes.map (bucketOf state size)).foldl recordCollision [] := by
      rw [collisionRecord, List.foldl_map]
    obtain ⟨h1, h2, h3⟩ :=
      recordAll_spec (codes.map (bucketOf state size)) [] (by simp)
    rw [← hfold] at h1 h2 h3
    simp only [List.map_nil, List.toFinset_nil, List.length_nil, List.sum_nil,
      Finset.empty_union, Nat.add_zero, Nat.zero_add] at h2 h3
    have hcard : (codes.map (bucketOf state size)).toFinset.card
        = (collisionRecord state size codes).length := by
      rw [← h2, List.toFinset_card_of_nodup h1, List.length_map]
    rw [List.length_map] at h3
    show ((((collisionRecord state size codes).map Prod.snd).sum : ℕ) : ℤ) = _
    omega
  · rfl

/-! ### Lemmas about the annealing loop -/

section AnnealProofs

variable (data : Option (List ℕ)) (size kmax : ℕ) (emax : ℝ)
variable (u : ℕ → ℝ) (r1 r2 r3 : ℕ → ℕ)

lemma annealStep_k (c : SAState) :
    (annealStep data size kmax u r1 r2 r3 c).k = c.k + 1 := rfl

lemma annealStep_ebest_le (c : SAState) :
    (annealStep data size kmax u r1 r2 r3 c).ebest ≤ c.ebest := by
  simp only [annealStep]
  split_ifs with h
  · exact le_of_lt h
  · exact le_refl _

lemma annealStep_best_inv (c : SAState)
    (hinv : energyOf data size c.sbest = c.ebest) :
    energyOf data size (annealStep data size kmax u r1 r2 r3 c).sbest
      = (annealStep data size kmax u r1 r2 r3 c).ebest := by
  simp only [annealStep]
  split_ifs with h
  · rfl
  · exact hinv

lemma annealG_eq_self (c : SAState) (h : ¬ (c.k < kmax ∧ emax < c.e)) :
    annealG data size kmax emax u r1 r2 r3 c = c := by
  rw [annealG, if_neg h]

lemma annealG_ebest_le (c : SAState) :
    (annealG data size kmax emax u r1 r2 r3 c).ebest ≤ c.ebest := by
  rw [annealG]
  split_ifs with h
  · exact annealStep_ebest_le data size kmax u r1 r2 r3 c
  · exact le_refl _

lemma annealG_best_inv (c : SAState)
    (hinv : energyOf data size c.sbest = c.ebest) :
    energyOf data size (annealG data size kmax emax u r1 r2 r3 c).sbest
      = (annealG data size kmax emax u r1 r2 r3 c).ebest := by
  rw [annealG]
  split_ifs with h
  · exact annealStep_best_inv data size kmax u r1 r2 r3 c hinv
  · exact hinv

lemma annealG_fixed_iter (c : SAState)
    (h : annealG data size kmax emax u r1 r2 r3 c = c) (n : ℕ) :
    (annealG data size kmax emax u r1 r2 r3)^[n] c = c := by
  induction n with
  | zero => rfl
  | succ n ih => rw [Function.iterate_succ_apply, h, ih]

lemma annealG_stable (n : ℕ) : ∀ c : SAState, kmax ≤ c.k + n →
    (annealG data size kmax emax u r1 r2 r3)^[n + 1] c
      = (annealG data size kmax emax u r1 r2 r3)^[n] c := by
  induction n with
  | zero =>
      intro c hc
      simp only [Function.iterate_one, Function.iterate_zero, id]
      exact annealG_eq_self data size kmax emax u r1 r2 r3 c
        (fun hcon => absurd hcon.1 (by omega))
  | succ n ih =>
      intro c hc
      by_cases hg : c.k < kmax ∧ emax < c.e
      · have hstep : annealG data size kmax emax u r1 r2 r3 c
            = annealStep data size kmax u r1 r2 r3 c := by
          rw [annealG, if_pos hg]
        have e1 : (annealG data size kmax emax u r1 r2 r3)^[n + 1 + 1] c
            = (annealG data size kmax emax u r1 r2 r3)^[n + 1]
                (annealStep data size kmax u r1 r2 r3 c) := by
          rw [Function.iterate_succ_apply, hstep]
        have e2 : (annealG data size kmax emax u r1 r2 r3)^[n + 1] c
            = (annealG data size kmax emax u r1 r2 r3)^[n]
                (annealStep data size kmax u r1 r2 r3 c) := by
          rw [Function.iterate_succ_apply, hstep]
        rw [e1, e2]
        have hk := annealStep_k data size kmax u r1 r2 r3 c
        exact ih (annealStep data size kmax u r1 r2 r3 c) (by omega)
      · have hfix := annealG_eq_self data size kmax emax u r1 r2 r3 c hg
        rw [annealG_fixed_iter data size kmax emax u r1 r2 r3 c hfix,
          annealG_fixed_iter data size kmax emax u r1 r2 r3 c hfix]

lemma annealTrace_succ (s : State) (n : ℕ) :
    annealTrace data size kmax emax u r1 r2 r3 s (n + 1)
      = annealG data size kmax emax u r1 r2 r3
          (annealTrace data size kmax emax u r1 r2 r3 s n) :=
  Function.iterate_succ_apply' _ _ _

lemma annealTrace_best_inv (s : State) (n : ℕ) :
    energyOf data size (annealTrace data size kmax emax u r1 r2 r3 s n).sbest
      = (annealTrace data size kmax emax u r1 r2 r3 s n).ebest := by
  induction n with
  | zero => rfl
  | succ n ih =>
      rw [annealTrace_succ]
      exact annealG_best_inv data size kmax emax u r1 r2 r3 _ ih

end AnnealProofs

/-- Claim C5: across any run of `anneal` (any data, table size, budget,
energy target and random draws), the sequence of `ebest` values along the
loop iterations is non-increasing (`best` is updated only on strict
improvement), the state `anneal` returns is the tracked best state — its
energy equals the final `ebest`, not the possibly worse current working
energy — and therefore the energy of the returned state is at most the
energy of the seed state. -/
theorem anneal_best_monotone (data : Option (List ℕ)) (size kmax : ℕ) (emax : ℝ)
    (u : ℕ → ℝ) (r1 r2 r3 : ℕ → ℕ) (s : State) :
    (∀ n, (annealTrace data size kmax emax u r1 r2 r3 s (n + 1)).ebest
        ≤ (annealTrace data size kmax emax u r1 r2 r3 s n).ebest) ∧
    energyOf data size (anneal data size kmax emax u r1 r2 r3 s)
      = (annealTrace data size kmax emax u r1 r2 r3 s kmax).ebest ∧
    energyOf data size (anneal data size kmax emax u r1 r2 r3 s)
      ≤ energyOf data size s := by
  have hmono : ∀ n, (annealTrace data size kmax emax u r1 r2 r3 s (n + 1)).ebest
      ≤ (annealTrace data size kmax emax u r1 r2 r3 s n).ebest := by
    intro n
    rw [annealTrace_succ]
    exact annealG_ebest_le data size kmax emax u r1 r2 r3 _
  have hle : ∀ n, (annealTrace data size kmax emax u r1 r2 r3 s n).ebest
      ≤ (annealTrace data size kmax emax u r1 r2 r3 s 0).ebest := by
    intro n
    induction n with
    | zero => exact le_refl _
    | succ n ih => exact le_trans (hmono n) ih
  refine ⟨hmono, annealTrace_best_inv data size kmax emax u r1 r2 r3 s kmax, ?_⟩
  calc energyOf data size (anneal data size kmax emax u r1 r2 r3 s)
      = (annealTrace data size kmax emax u r1 r2 r3 s kmax).ebest :=
        annealTrace_best_inv data size kmax emax u r1 r2 r3 s kmax
    _ ≤ (annealTrace data size kmax emax u r1 r2 r3 s 0).ebest := hle kmax
    _ = energyOf data size s := rfl

/-- Claim C6: for every iteration budget `kmax ≥ 1` and every energy
target, the loop of `anneal` halts after at most `kmax` guarded
iterations — the trace is constant from index `kmax` on — and it stops
as soon as the current energy is at or below `emax` (a trace point whose
energy has reached the target is a fixed point of the loop). -/
theorem anneal_halts (data : Option (List ℕ)) (size kmax : ℕ) (emax : ℝ)
    (u : ℕ → ℝ) (r1 r2 r3 : ℕ → ℕ) (s : State) (_hk : 1 ≤ kmax) :
    (∀ n, kmax ≤ n → annealTrace data size kmax emax u r1 r2 r3 s n
        = annealTrace data size kmax emax u r1 r2 r3 s kmax) ∧
    (∀ n, (annealTrace data size kmax emax u r1 r2 r3 s n).e ≤ emax →
        annealTrace data size kmax emax u r1 r2 r3 s (n + 1)
          = annealTrace data size kmax emax u r1 r2 r3 s n) := by
  constructor
  · intro n hn
    induction n, hn using Nat.le_induction with
    | base => rfl
    | succ n hn ih =>
        have hst := annealG_stable data size kmax emax u r1 r2 r3 n
          (annealInit data size s) (by simp [annealInit]; omega)
        simp only [annealTrace] at ih ⊢
        rw [hst]
        exact ih
  · intro n hn
    rw [annealTrace_succ]
    exact annealG_eq_self data size kmax emax u r1 r2 r3 _
      (fun hcon => absurd hcon.2 (not_lt.mpr hn))

theorem anneal_halts_witness :
    (∀ n, 1 ≤ n → annealTrace none 1 1 0 (fun _ => 0) (fun _ => 0) (fun _ => 0)
        (fun _ => 0) ⟨0, 0, 0, 0⟩ n
      = annealTrace none 1 1 0 (fun _ => 0) (fun _ => 0) (fun _ => 0)
        (fun _ => 0) ⟨0, 0, 0, 0⟩ 1) ∧
    (∀ n, (annealTrace none 1 1 0 (fun _ => 0) (fun _ => 0) (fun _ => 0)
        (fun _ => 0) ⟨0, 0, 0, 0⟩ n).e ≤ 0 →
      annealTrace none 1 1 0 (fun _ => 0) (fun _ => 0) (fun _ => 0)
        (fun _ => 0) ⟨0, 0, 0, 0⟩ (n + 1)
      = annealTrace none 1 1 0 (fun _ => 0) (fun _ => 0) (fun _ => 0)
        (fun _ => 0) ⟨0, 0, 0, 0⟩ n) :=
  anneal_halts none 1 1 0 (fun _ => 0) (fun _ => 0) (fun _ => 0) (fun _ => 0)
    ⟨0, 0, 0, 0⟩ (le_refl 1)
